import Mathlib

/-!
Verification of the `AlexNet` classifier wrapper (`src/AlexNetNew.py`).

The file shallowly embeds the state-managing logic of the class: the label
decision rule of `run` (lines 123-129), the per-class rolling state update
(lines 132-134), the construction of the state dictionaries (lines 65-66),
and the softmax producing the probability vector (line 120).  Probabilities
are modelled as exact rationals; softmax, which uses the real exponential,
is modelled over the reals.  The pretrained network and the image transform
pipeline are external black boxes: the embedded `run` takes the probability
vector they produce as its input, and the image-to-label pipeline is
modelled with the network as an abstract function.
-/

namespace AlexNetNew

/-- Class constant `BUFF_SIZE = 10000` of the `AlexNet` class. -/
def BUFF_SIZE : Nat := 10000

/-- Python string split `s.split(sep)`, on a list of characters.  The result
is always a non-empty list of groups; splitting the empty string yields one
empty group, as in Python. -/
def pySplit (sep : Char) : List Char → List (List Char)
  | [] => [[]]
  | c :: cs =>
    if c = sep then
      [] :: pySplit sep cs
    else
      match pySplit sep cs with
      | [] => [[c]]
      | g :: gs => (c :: g) :: gs

/-- Python slice `l[-k:]` used on line 134: the last `k` elements of `l`
(all of `l` when it is shorter than `k`). -/
def lastSlice (k : Nat) (l : List ℚ) : List ℚ := l.drop (l.length - k)

/-- The value component of `torch.max(v, dim=0)` on line 123: the maximum
entry of the vector (junk value `0` on the empty list, which cannot occur
for the 1000-entry probability vector). -/
def listMax : List ℚ → ℚ
  | [] => 0
  | x :: xs => xs.foldl max x

/-- The index component of `torch.max(v, dim=0)` on line 123: the first
index holding the maximum entry. -/
def listArgmax (l : List ℚ) : Nat := l.findIdx (fun x => decide (listMax l ≤ x))

/-- Line 127: `self.labels[label_idx].split(',')[0][10:]` — the text before
the first comma of the label entry with its first 10 characters removed. -/
def stripLabel (entry : List Char) : List Char :=
  ((pySplit ',' entry).headD []).drop 10

/-- The specification wording of the same computation: the table entry with
the text after the first comma removed and the first 10 characters
stripped.  Stated with `takeWhile`, to be compared with `stripLabel`. -/
def specLabel (entry : List Char) : List Char :=
  (entry.takeWhile (fun c => decide (c ≠ ','))).drop 10

/-- The rolling per-class state of the classifier: `self.states`
(`ClassProbabilityHistory`) and `self.acc_states`
(`ClassAccumulatedHistory`), keyed by class index. -/
structure State where
  states : Nat → List ℚ
  acc_states : Nat → List ℚ

/-- Lines 65-66 of `__init__`:
`self.states = {n: [] for n in range(1000)}` and
`self.acc_states = {n: [0.0] for n in range(1000)}`. -/
def initState : State :=
  { states := fun _ => [], acc_states := fun _ => [0] }

/-- Line 133: each class index `n` covered by the probability vector gets
the new probability appended to `states[n]`. -/
def updateStates (probs : List ℚ) (s : Nat → List ℚ) : Nat → List ℚ :=
  fun n => if h : n < probs.length then s n ++ [probs.get ⟨n, h⟩] else s n

/-- Line 134: each class index `n` covered by the probability vector gets
`sum(self.states[n][-self.BUFF_SIZE:])` appended to `acc_states[n]`, where
`states` is the already-updated history `s'`. -/
def updateAcc (probs : List ℚ) (s' : Nat → List ℚ) (a : Nat → List ℚ) :
    Nat → List ℚ :=
  fun n => if n < probs.length then
    a n ++ [(lastSlice BUFF_SIZE (s' n)).sum] else a n

/-- Lines 123-129: the label decision.  If the maximum probability is
strictly greater than `0.1`, the stripped label-table entry at the argmax
index; otherwise the placeholder string `"-"`. -/
def runLabel (labels : List (List Char)) (probs : List ℚ) : List Char :=
  if 1/10 < listMax probs then
    stripLabel (labels.getD (listArgmax probs) [])
  else
    ['-']

/-- The body of `run` after preprocessing, forward pass and softmax, as a
state transition: given the softmax probability vector, produce the label
and the updated rolling state (lines 123-134). -/
def run (labels : List (List Char)) (st : State) (probs : List ℚ) :
    List Char × State :=
  (runLabel labels probs,
   { states := updateStates probs st.states,
     acc_states := updateAcc probs (updateStates probs st.states) st.acc_states })

/-- `run` including its fallible front end (lines 115-120): a `none` input
models a preprocessing or forward-pass failure, which in the source raises
before any state update is reached; a `some probs` input models a
successful forward pass producing probability vector `probs`. -/
def classify (labels : List (List Char)) (st : State)
    (input : Option (List ℚ)) : Except Unit (List Char) × State :=
  match input with
  | none => (Except.error (), st)
  | some probs => (Except.ok (run labels st probs).1, (run labels st probs).2)

/-- Iterated `run` over a sequence of frames (their probability vectors). -/
def runK (labels : List (List Char)) (st : State) : List (List ℚ) → State
  | [] => st
  | p :: ps => runK labels (run labels st p).2 ps

/-- The image-to-label pipeline with the composed network (preprocessing,
forward pass, softmax) as an abstract function `net` from images to
probability vectors: the label computation reads only the image's
probabilities, never the rolling state. -/
def classifyImage {I : Type} (net : I → List ℚ) (labels : List (List Char))
    (st : State) (img : I) : List Char × State :=
  run labels st (net img)

/-- Line 120: `torch.nn.functional.softmax(outputs, dim=1)[0]` over the
1000 output logits. -/
noncomputable def softmax (l : List ℝ) : List ℝ :=
  l.map (fun x => Real.exp x / (l.map Real.exp).sum)

/-- Sample label-table entry in the WordNet synset format
(`n01440764 tench, Tinca tinca` truncated), used in concrete witnesses. -/
def entryTench : List Char :=
  ['n', '0', '1', '4', '4', '0', '7', '6', '4', ' ',
   't', 'e', 'n', 'c', 'h', ',', ' ', 'T', 'i', 'n', 'c', 'a']

/-- Degenerate label-table entry whose text before the first comma is
exactly 10 characters long (a 9-character synset id plus the separator,
with an empty class name). -/
def entryShort : List Char :=
  ['n', '0', '1', '4', '4', '0', '7', '6', '4', ' ']

/- ### Helper lemmas -/

theorem pySplit_ne_nil (sep : Char) (l : List Char) : pySplit sep l ≠ [] := by
  cases l with
  | nil => simp [pySplit]
  | cons c cs =>
    simp only [pySplit]
    split
    · simp
    · split
      · simp
      · simp

theorem pySplit_headD (sep : Char) (l : List Char) :
    (pySplit sep l).headD [] = l.takeWhile (fun c => decide (c ≠ sep)) := by
  induction l with
  | nil => simp [pySplit]
  | cons c cs ih =>
    by_cases hc : c = sep
    · subst hc
      simp [pySplit, List.takeWhile]
    · rw [pySplit]
      rw [if_neg hc]
      rcases hps : pySplit sep cs with _ | ⟨g, gs⟩
      · exact absurd hps (pySplit_ne_nil sep cs)
      · have : (pySplit sep cs).headD [] = g := by rw [hps]; rfl
        rw [this] at ih
        show c :: g = _
        rw [ih]
        simp [List.takeWhile_cons, hc]

/-- `stripLabel` agrees with the specification's `takeWhile` description. -/
theorem stripLabel_eq_specLabel (entry : List Char) :
    stripLabel entry = specLabel entry := by
  unfold stripLabel specLabel
  rw [pySplit_headD]

theorem run_states_eq (labels : List (List Char)) (st : State)
    (probs : List ℚ) (n : Nat) (h : n < probs.length) :
    (run labels st probs).2.states n = st.states n ++ [probs.get ⟨n, h⟩] := by
  show updateStates probs st.states n = _
  rw [updateStates]
  rw [dif_pos h]

theorem run_states_len (labels : List (List Char)) (st : State)
    (probs : List ℚ) (n : Nat) (h : n < probs.length) :
    ((run labels st probs).2.states n).length = (st.states n).length + 1 := by
  rw [run_states_eq labels st probs n h]
  simp

theorem run_acc_eq (labels : List (List Char)) (st : State)
    (probs : List ℚ) (n : Nat) (h : n < probs.length) :
    (run labels st probs).2.acc_states n
      = st.acc_states n
        ++ [(lastSlice BUFF_SIZE ((run labels st probs).2.states n)).sum] := by
  show updateAcc probs (updateStates probs st.states) st.acc_states n = _
  rw [updateAcc]
  rw [if_pos h]
  rfl

theorem run_acc_len (labels : List (List Char)) (st : State)
    (probs : List ℚ) (n : Nat) (h : n < probs.length) :
    ((run labels st probs).2.acc_states n).length
      = (st.acc_states n).length + 1 := by
  rw [run_acc_eq labels st probs n h]
  simp

theorem runK_states_len (labels : List (List Char)) (ps : List (List ℚ))
    (n : Nat) :
    ∀ st : State, (∀ p ∈ ps, n < p.length) →
      ((runK labels st ps).states n).length
          = (st.states n).length + ps.length
      ∧ ((runK labels st ps).acc_states n).length
          = (st.acc_states n).length + ps.length := by
  induction ps with
  | nil => intro st _; simp [runK]
  | cons p ps ih =>
    intro st hps
    have hp : n < p.length := hps p (List.mem_cons_self p ps)
    have hrest : ∀ q ∈ ps, n < q.length :=
      fun q hq => hps q (List.mem_cons_of_mem p hq)
    have ihs := ih (run labels st p).2 hrest
    rw [runK]
    refine ⟨?_, ?_⟩
    · rw [ihs.1, run_states_len labels st p n hp]
      simp only [List.length_cons]
      omega
    · rw [ihs.2, run_acc_len labels st p n hp]
      simp only [List.length_cons]
      omega

theorem runLabel_high (labels : List (List Char)) (probs : List ℚ)
    (hmax : 1/10 < listMax probs) (hidx : listArgmax probs < labels.length) :
    runLabel labels probs = specLabel (labels.get ⟨listArgmax probs, hidx⟩) := by
  rw [runLabel, if_pos hmax, List.getD_eq_get labels [] hidx,
    stripLabel_eq_specLabel]

theorem runLabel_low (labels : List (List Char)) (probs : List ℚ)
    (hmax : listMax probs ≤ 1/10) : runLabel labels probs = ['-'] := by
  rw [runLabel, if_neg (not_lt.mpr hmax)]

theorem specLabel_ne_nil (e : List Char)
    (h : 10 < (e.takeWhile (fun c => decide (c ≠ ','))).length) :
    specLabel e ≠ [] := by
  rw [specLabel]
  exact List.length_pos.mp (by rw [List.length_drop]; omega)

/- ### Claims -/

/-- C1: for every processed probability vector, if the maximum softmax
probability is strictly greater than 0.10 the label returned by `run` is
the label-table entry at the argmax class index with the text after the
first comma removed and the first 10 characters stripped; if the maximum
probability is less than or equal to 0.10 (including exactly 0.10) the
returned label is the literal string "-". -/
theorem run_label_decision (labels : List (List Char)) (st : State)
    (probs : List ℚ) (hidx : listArgmax probs < labels.length) :
    (1/10 < listMax probs →
      (run labels st probs).1 = specLabel (labels.get ⟨listArgmax probs, hidx⟩))
    ∧ (listMax probs ≤ 1/10 → (run labels st probs).1 = ['-']) := by
  exact ⟨fun h => runLabel_high labels probs h hidx,
    fun h => runLabel_low labels probs h⟩

/-- Witness for C1 at concrete inputs: a probability vector with maximum
1 > 1/10 yields the stripped entry, and one with maximum exactly 1/10
yields "-". -/
theorem run_label_decision_witness :
    (listArgmax [(1 : ℚ)] < [entryTench].length
      ∧ (run [entryTench] initState [(1 : ℚ)]).1
          = ['t', 'e', 'n', 'c', 'h'])
    ∧ (run [entryTench] initState [(1 : ℚ)/10]).1 = ['-'] := by
  refine ⟨⟨by decide, ?_⟩, ?_⟩
  · have h := (run_label_decision [entryTench] initState [(1 : ℚ)]
      (by decide)).1 (by norm_num [listMax])
    rw [h]
    decide
  · exact (run_label_decision [entryTench] initState [(1 : ℚ)/10]
      (by norm_num [listArgmax, listMax, List.findIdx_cons])).2
      (by norm_num [listMax])

/-- C2: on every call, for every class index covered by the probability
vector, the entry appended to `acc_states[n]` is the sum of the last
`BUFF_SIZE` entries of `states[n]` after the new probability has been
appended; when the updated history holds at most `BUFF_SIZE` entries this
is the sum of all of them. -/
theorem run_acc_moving_sum (labels : List (List Char)) (st : State)
    (probs : List ℚ) (n : Nat) (h : n < probs.length) :
    (run labels st probs).2.acc_states n
      = st.acc_states n
        ++ [(lastSlice BUFF_SIZE (st.states n ++ [probs.get ⟨n, h⟩])).sum]
    ∧ (((run labels st probs).2.states n).length ≤ BUFF_SIZE →
        (lastSlice BUFF_SIZE ((run labels st probs).2.states n)).sum
          = ((run labels st probs).2.states n).sum) := by
  constructor
  · rw [run_acc_eq labels st probs n h, run_states_eq labels st probs n h]
  · intro hlen
    rw [lastSlice, Nat.sub_eq_zero_of_le hlen, List.drop_zero]

/-- Witness for C2: one call on the empty initial state with probability
vector `[1/2]` appends `1/2` as the accumulated sum for class 0. -/
theorem run_acc_moving_sum_witness :
    (run [] initState [(1 : ℚ)/2]).2.acc_states 0
        = [0] ++ [(lastSlice BUFF_SIZE ([] ++ [(1 : ℚ)/2])).sum]
    ∧ (lastSlice BUFF_SIZE ((run [] initState [(1 : ℚ)/2]).2.states 0)).sum
        = ((run [] initState [(1 : ℚ)/2]).2.states 0).sum := by
  have h := run_acc_moving_sum [] initState [(1 : ℚ)/2] 0 (by decide)
  exact ⟨h.1, h.2 (by decide)⟩

/-- C3: after `k` completed calls every `states[n]` (class index below
1000) has length exactly `k` and every `acc_states[n]` has length exactly
`k + 1`, the latter because it is seeded with a single `0.0` entry and each
call appends exactly one entry to each sequence. -/
theorem history_growth (labels : List (List Char)) (ps : List (List ℚ))
    (hps : ∀ p ∈ ps, p.length = 1000) (n : Nat) (hn : n < 1000) :
    ((runK labels initState ps).states n).length = ps.length
    ∧ ((runK labels initState ps).acc_states n).length = ps.length + 1 := by
  have h := runK_states_len labels ps n initState
    (fun p hp => by rw [hps p hp]; exact hn)
  constructor
  · have h1 := h.1
    rw [show (initState.states n).length = 0 from rfl] at h1
    simpa using h1
  · have h2 := h.2
    rw [show (initState.acc_states n).length = 1 from rfl] at h2
    omega

/-- Witness for C3: two frames of 1000 uniform probabilities leave class 0
with a 2-entry probability history and a 3-entry accumulated history. -/
theorem history_growth_witness :
    ((runK [] initState
        [List.replicate 1000 ((1 : ℚ)/1000),
         List.replicate 1000 ((1 : ℚ)/1000)]).states 0).length = 2
    ∧ ((runK [] initState
        [List.replicate 1000 ((1 : ℚ)/1000),
         List.replicate 1000 ((1 : ℚ)/1000)]).acc_states 0).length = 3 :=
  history_growth []
    [List.replicate 1000 ((1 : ℚ)/1000), List.replicate 1000 ((1 : ℚ)/1000)]
    (by
      intro p hp
      rcases List.mem_cons.mp hp with h | hp2
      · rw [h]; exact List.length_replicate 1000 _
      · rcases List.mem_cons.mp hp2 with h | h
        · rw [h]; exact List.length_replicate 1000 _
        · exact absurd h (List.not_mem_nil p))
    0 (by norm_num)

/-- C4 counterexample: with a label table whose only entry has a first
comma-segment of exactly 10 characters and a probability vector with
maximum 1 > 1/10, the label returned by `run` is neither "-" nor a
non-empty string drawn from the label table: it is the empty string. -/
theorem classify_return_counterexample :
    ¬ ((run [entryShort] initState [(1 : ℚ)]).1 = ['-']
      ∨ ((run [entryShort] initState [(1 : ℚ)]).1 ≠ []
         ∧ ∃ e ∈ [entryShort],
             (run [entryShort] initState [(1 : ℚ)]).1 = specLabel e)) := by
  have h : (run [entryShort] initState [(1 : ℚ)]).1 = [] := by
    have h2 := runLabel_high [entryShort] [(1 : ℚ)]
      (by norm_num [listMax]) (by decide)
    show runLabel [entryShort] [(1 : ℚ)] = []
    rw [h2]
    decide
  rw [h]
  simp

/-- C4 (amended): for every probability vector, if every label-table entry
has a first comma-segment longer than 10 characters, the label returned by
`run` is either "-" or a non-empty string derived from a label-table entry
(the entry's text before the first comma with its first 10 characters
stripped). -/
theorem classify_return_total (labels : List (List Char)) (st : State)
    (probs : List ℚ) (hidx : listArgmax probs < labels.length)
    (hlen : ∀ e ∈ labels,
      10 < (e.takeWhile (fun c => decide (c ≠ ','))).length) :
    (run labels st probs).1 = ['-']
    ∨ ((run labels st probs).1 ≠ []
       ∧ ∃ e ∈ labels, (run labels st probs).1 = specLabel e) := by
  by_cases hmax : 1/10 < listMax probs
  · right
    have hr : (run labels st probs).1
        = specLabel (labels.get ⟨listArgmax probs, hidx⟩) :=
      runLabel_high labels probs hmax hidx
    have hmem := List.get_mem labels (listArgmax probs) hidx
    refine ⟨?_, labels.get ⟨listArgmax probs, hidx⟩, hmem, hr⟩
    rw [hr]
    exact specLabel_ne_nil _ (hlen _ hmem)
  · left
    exact runLabel_low labels probs (not_lt.mp hmax)

/-- Witness for the amended C4: a table with a single well-formed entry and
a confident probability vector yield the non-empty branch. -/
theorem classify_return_total_witness :
    (run [entryTench] initState [(1 : ℚ)]).1 = ['-']
    ∨ ((run [entryTench] initState [(1 : ℚ)]).1 ≠ []
       ∧ ∃ e ∈ [entryTench],
           (run [entryTench] initState [(1 : ℚ)]).1 = specLabel e) :=
  classify_return_total [entryTench] initState [(1 : ℚ)] (by decide)
    (by
      intro e he
      rw [List.mem_singleton.mp he]
      decide)

/-- C5: `classify` is atomic with respect to the rolling state: a failing
call (preprocessing or forward-pass error, modelled by a `none` input)
returns an error and leaves both history mappings exactly as they were,
while a successful call returns a label and appends exactly one entry per
covered class to both `states` and `acc_states`. -/
theorem classify_atomic (labels : List (List Char)) (st : State) :
    ((classify labels st none).2 = st
      ∧ (classify labels st none).1 = Except.error ())
    ∧ (∀ probs : List ℚ, ∀ n : Nat, n < probs.length →
        ((classify labels st (some probs)).2.states n).length
            = (st.states n).length + 1
        ∧ ((classify labels st (some probs)).2.acc_states n).length
            = (st.acc_states n).length + 1
        ∧ (classify labels st (some probs)).1
            = Except.ok (run labels st probs).1) := by
  refine ⟨⟨rfl, rfl⟩, ?_⟩
  intro probs n h
  exact ⟨run_states_len labels st probs n h,
    run_acc_len labels st probs n h, rfl⟩

/-- Witness for C5: a failing call leaves the fresh state untouched and a
successful single-class call grows the class-0 history by one entry. -/
theorem classify_atomic_witness :
    (classify [] initState none).2 = initState
    ∧ ((classify [] initState (some [(1 : ℚ)])).2.states 0).length
        = (initState.states 0).length + 1 := by
  have h := classify_atomic [] initState
  exact ⟨h.1.1, (h.2 [(1 : ℚ)] 0 (by decide)).1⟩

/-- C6: `classify` is deterministic: with the composed network modelled as
a function from images to probability vectors, two calls on the same image
from arbitrary rolling states return the identical label, which is a
function of the image's probability vector alone (the label computation
never reads the accumulated history). -/
theorem classify_deterministic {I : Type} (net : I → List ℚ)
    (labels : List (List Char)) (st₁ st₂ : State) (img : I) :
    (classifyImage net labels st₁ img).1 = (classifyImage net labels st₂ img).1
    ∧ (classifyImage net labels st₁ img).1 = runLabel labels (net img)
    ∧ (classifyImage net labels st₁ img).1
        = (classifyImage net labels
            (classifyImage net labels st₁ img).2 img).1 :=
  ⟨rfl, rfl, rfl⟩

/-- C8: `states` is append-only and never truncated: one call replaces
`states[n]` by the old contents with exactly the new probability appended
(so the previous contents are preserved unchanged as a prefix and
`BUFF_SIZE` is never applied to shorten the stored sequence), and over any
sequence of calls the length grows by one per call without bound. -/
theorem states_append_only (labels : List (List Char)) (st : State)
    (probs : List ℚ) (n : Nat) (h : n < probs.length) :
    (run labels st probs).2.states n = st.states n ++ [probs.get ⟨n, h⟩]
    ∧ ∀ ps : List (List ℚ), (∀ p ∈ ps, n < p.length) →
        ((runK labels st ps).states n).length
          = (st.states n).length + ps.length :=
  ⟨run_states_eq labels st probs n h,
    fun ps hps => (runK_states_len labels ps n st hps).1⟩

/-- Witness for C8: a concrete call appends `1` to the empty class-0
history, and a further one-frame sequence grows the length by one. -/
theorem states_append_only_witness :
    (run [] initState [(1 : ℚ)]).2.states 0 = [] ++ [(1 : ℚ)]
    ∧ ((runK [] initState [[(2 : ℚ)]]).states 0).length
        = (initState.states 0).length + 1 := by
  have h := states_append_only [] initState [(1 : ℚ)] 0 (by decide)
  exact ⟨h.1, h.2 [[(2 : ℚ)]] (by decide)⟩

/-- C9: if the maximum softmax probability exceeds 1/10 and the
label-table entry at the argmax index has a first comma-segment of length
at most 10, the returned label is the empty string — an output that is
neither "-" nor a non-empty label, because the fixed 10-character strip is
applied unconditionally to the text before the first comma. -/
theorem short_entry_empty_label (labels : List (List Char)) (probs : List ℚ)
    (hidx : listArgmax probs < labels.length)
    (hmax : 1/10 < listMax probs)
    (hlen : ((labels.get ⟨listArgmax probs, hidx⟩).takeWhile
        (fun c => decide (c ≠ ','))).length ≤ 10) :
    runLabel labels probs = [] ∧ runLabel labels probs ≠ ['-'] := by
  have h : runLabel labels probs
      = specLabel (labels.get ⟨listArgmax probs, hidx⟩) :=
    runLabel_high labels probs hmax hidx
  rw [h, specLabel, List.drop_eq_nil_of_le hlen]
  exact ⟨rfl, by simp⟩

/-- Witness for C9: the degenerate 10-character entry with a confident
probability vector yields the empty label. -/
theorem short_entry_empty_label_witness :
    runLabel [entryShort] [(1 : ℚ)] = []
    ∧ runLabel [entryShort] [(1 : ℚ)] ≠ ['-'] :=
  short_entry_empty_label [entryShort] [(1 : ℚ)] (by decide)
    (by norm_num [listMax]) (by decide)

theorem sum_map_div (l : List ℝ) (c : ℝ) :
    (l.map (fun x => Real.exp x / c)).sum = (l.map Real.exp).sum / c := by
  induction l with
  | nil => simp
  | cons x xs ih => simp [ih, add_div]

theorem exp_sum_pos (l : List ℝ) (hl : l ≠ []) :
    0 < (l.map Real.exp).sum := by
  apply List.sum_pos
  · intro x hx
    rcases List.mem_map.mp hx with ⟨y, _, rfl⟩
    exact Real.exp_pos y
  · simpa [List.map_eq_nil] using hl

/-- C7: the probability vector stored in `output_prob` is the softmax of
the network's 1000 output logits: it has exactly 1000 entries, every entry
lies in [0,1], and the entries sum to 1. -/
theorem output_prob_distribution (logits : List ℝ)
    (h : logits.length = 1000) :
    (softmax logits).length = 1000
    ∧ (∀ p ∈ softmax logits, 0 ≤ p ∧ p ≤ 1)
    ∧ (softmax logits).sum = 1 := by
  have hne : logits ≠ [] := by
    intro hn
    rw [hn] at h
    simp at h
  have hpos := exp_sum_pos logits hne
  refine ⟨by simp [softmax, h], ?_, ?_⟩
  · intro p hp
    rcases List.mem_map.mp hp with ⟨x, hx, rfl⟩
    constructor
    · exact div_nonneg (Real.exp_pos x).le hpos.le
    · rw [div_le_one hpos]
      exact List.single_le_sum
        (fun y hy => by
          rcases List.mem_map.mp hy with ⟨z, _, rfl⟩
          exact (Real.exp_pos z).le)
        _ (List.mem_map_of_mem Real.exp hx)
  · rw [softmax, sum_map_div, div_self (ne_of_gt hpos)]

/-- Witness for C7: the softmax of 1000 zero logits is a 1000-entry
probability distribution. -/
theorem output_prob_distribution_witness :
    (softmax (List.replicate 1000 (0 : ℝ))).length = 1000
    ∧ (softmax (List.replicate 1000 (0 : ℝ))).sum = 1 :=
  ⟨(output_prob_distribution (List.replicate 1000 (0 : ℝ))
      (List.length_replicate 1000 0)).1,
   (output_prob_distribution (List.replicate 1000 (0 : ℝ))
      (List.length_replicate 1000 0)).2.2⟩

/-- Every stored probability lies in [0,1] and every accumulated entry in
[0, BUFF_SIZE]. -/
def BoundedState (st : State) : Prop :=
  ∀ n : Nat, (∀ x ∈ st.states n, 0 ≤ x ∧ x ≤ 1)
    ∧ (∀ x ∈ st.acc_states n, 0 ≤ x ∧ x ≤ (BUFF_SIZE : ℚ))

theorem sum_le_length (l : List ℚ) (h : ∀ x ∈ l, x ≤ 1) :
    l.sum ≤ (l.length : ℚ) := by
  induction l with
  | nil => simp
  | cons x xs ih =>
    simp only [List.sum_cons, List.length_cons]
    push_cast
    have hx := h x (List.mem_cons_self x xs)
    have hxs := ih (fun y hy => h y (List.mem_cons_of_mem x hy))
    linarith

theorem lastSlice_sum_bounds (l : List ℚ) (hb : ∀ x ∈ l, 0 ≤ x ∧ x ≤ 1) :
    0 ≤ (lastSlice BUFF_SIZE l).sum
    ∧ (lastSlice BUFF_SIZE l).sum ≤ (BUFF_SIZE : ℚ) := by
  have hsub : ∀ x ∈ lastSlice BUFF_SIZE l, 0 ≤ x ∧ x ≤ 1 :=
    fun x hx => hb x (List.drop_subset _ l hx)
  constructor
  · exact List.sum_nonneg (fun x hx => (hsub x hx).1)
  · refine le_trans (sum_le_length _ (fun x hx => (hsub x hx).2)) ?_
    have hlen : (lastSlice BUFF_SIZE l).length ≤ BUFF_SIZE := by
      rw [lastSlice, List.length_drop]
      omega
    exact Nat.cast_le.mpr hlen

theorem run_preserves_bounds (labels : List (List Char)) (st : State)
    (probs : List ℚ) (hst : BoundedState st)
    (hp : ∀ x ∈ probs, 0 ≤ x ∧ x ≤ 1) :
    BoundedState (run labels st probs).2 := by
  intro n
  by_cases h : n < probs.length
  · have hsn : ∀ x ∈ (run labels st probs).2.states n, 0 ≤ x ∧ x ≤ 1 := by
      rw [run_states_eq labels st probs n h]
      intro x hx
      rcases List.mem_append.mp hx with hx | hx
      · exact (hst n).1 x hx
      · rw [List.mem_singleton.mp hx]
        exact hp _ (probs.get_mem n h)
    refine ⟨hsn, ?_⟩
    rw [run_acc_eq labels st probs n h]
    intro x hx
    rcases List.mem_append.mp hx with hx | hx
    · exact (hst n).2 x hx
    · rw [List.mem_singleton.mp hx]
      exact lastSlice_sum_bounds _ hsn
  · constructor
    · show ∀ x ∈ updateStates probs st.states n, _
      rw [updateStates, dif_neg h]
      exact (hst n).1
    · show ∀ x ∈ updateAcc probs (updateStates probs st.states)
          st.acc_states n, _
      rw [updateAcc, if_neg h]
      exact (hst n).2

theorem initState_bounded : BoundedState initState := by
  intro n
  constructor
  · intro x hx
    exact absurd hx (List.not_mem_nil x)
  · intro x hx
    rw [List.mem_singleton.mp hx]
    norm_num [BUFF_SIZE]

theorem runK_preserves_bounds (labels : List (List Char)) :
    ∀ ps : List (List ℚ), ∀ st : State, BoundedState st →
      (∀ p ∈ ps, ∀ x ∈ p, 0 ≤ x ∧ x ≤ 1) →
      BoundedState (runK labels st ps)
  | [], _, hst, _ => hst
  | p :: ps, st, hst, hps =>
    runK_preserves_bounds labels ps (run labels st p).2
      (run_preserves_bounds labels st p hst (hps p (List.mem_cons_self p ps)))
      (fun q hq => hps q (List.mem_cons_of_mem p hq))

/-- C10: every entry of every `states[n]` lies in [0,1] and every entry of
every `acc_states[n]` lies in [0, BUFF_SIZE]: the bound holds for the
initial state and is preserved by every call whose appended probabilities
are softmax components in [0,1], each accumulated entry being a sum of at
most BUFF_SIZE such probabilities. -/
theorem history_bounds (labels : List (List Char)) (ps : List (List ℚ))
    (hps : ∀ p ∈ ps, ∀ x ∈ p, 0 ≤ x ∧ x ≤ 1) :
    BoundedState (runK labels initState ps) :=
  runK_preserves_bounds labels ps initState initState_bounded hps

/-- Witness for C10: two concrete frames with probabilities in [0,1] keep
the rolling state within bounds. -/
theorem history_bounds_witness :
    BoundedState (runK [] initState [[(1 : ℚ)], [(0 : ℚ)]]) :=
  history_bounds [] [[(1 : ℚ)], [(0 : ℚ)]] (by decide)

end AlexNetNew
